import Mathlib

/-!
# Redo log recovery structures of `storage/innobase/include/log0recv.h`

A shallow embedding of the per-page redo record chain (`log_rec_t`,
`page_recv_t::recs_t`), the doublewrite shadow list (`recv_dblwr_t`), the
progress rate limiter (`recv_sys_t::report`) and the sizing constants of the
header, with theorems about them.

Pointers `log_rec_t*` are modelled as `Option Nat` (`none` is `nullptr`), and
the memory holding the records as a function from addresses to records.
-/

namespace Log0recv

/-- A nullable pointer to a `log_rec_t`: `none` is `nullptr`. -/
abbrev rec_ptr := Option Nat

/-- Stored redo log record `struct log_rec_t`: the `next` link and the
`mtr_t::commit_lsn()` of the mini-transaction. -/
structure log_rec_t where
  next : rec_ptr
  /-- The type `lsn_t` of the source is an unsigned 64-bit integer. -/
  lsn : Nat
  deriving DecidableEq, Repr

/-- The memory in which the records live: the record stored at each address. -/
abbrev rec_heap := Nat → log_rec_t

/-- The constructor `log_rec_t(lsn_t lsn) : next(nullptr), lsn(lsn) { ut_ad(lsn); }`.
The debug assertion `ut_ad(lsn)` fails for a zero LSN, which gives `none`. -/
def log_rec_t.construct (lsn : Nat) : Option log_rec_t :=
  if lsn ≠ 0 then some { next := none, lsn := lsn } else none

/-- The assignment `p->next= q` on the memory. -/
def set_next (h : rec_heap) (p : Nat) (q : rec_ptr) : rec_heap :=
  fun a => if a = p then { next := q, lsn := (h p).lsn } else h a

/-- The class `page_recv_t::recs_t`: the first and the last log record.
The default value is the freshly constructed chain, `head= nullptr` and
`tail= nullptr`. -/
structure recs_t where
  head : rec_ptr := none
  tail : rec_ptr := none
  deriving DecidableEq, Repr

/-- The method `recs_t::append(log_rec_t* recs)`:
`if (tail) tail->next= recs; else head= recs; tail= recs;`
It acts on the memory (through `tail->next`) and on the chain. -/
def recs_t.append (h : rec_heap) (c : recs_t) (recs : rec_ptr) : rec_heap × recs_t :=
  match c.tail with
  | some t => (set_next h t recs, { head := c.head, tail := recs })
  | none => (h, { head := recs, tail := recs })

/-- The method `recs_t::last()`: `return tail`. -/
def recs_t.last (c : recs_t) : rec_ptr := c.tail

/-- The method `recs_t::begin()`: an iterator at `head`. -/
def recs_t.begin (c : recs_t) : rec_ptr := c.head

/-- The method `recs_t::end()`: an iterator at `NULL`. -/
def recs_t.end_ (_c : recs_t) : rec_ptr := none

/-- The method `recs_t::empty()`: `ut_ad(!head == !tail); return !head;`.
A failing assertion gives `none`. -/
def recs_t.empty (c : recs_t) : Option Bool :=
  if c.head.isNone = c.tail.isNone then some c.head.isNone else none

/-- The `iterator::operator++`: `cur= cur->next`. Incrementing the end
iterator dereferences `NULL`; the loop below never does so. -/
def iterator_next (h : rec_heap) (cur : Nat) : rec_ptr := (h cur).next

/-- The loop `for (it= begin; it != end(); ++it) visit(*it)`, run for at most
`fuel` increments from the iterator `cur`: the records visited, in order, or
`none` when `end()` was not reached within `fuel` increments. -/
def iterate (h : rec_heap) : Nat → rec_ptr → Option (List Nat)
  | _, none => some []
  | 0, some _ => none
  | fuel + 1, some c => (iterate h fuel (iterator_next h c)).map (fun l => c :: l)

/-- The first `n` records that the loop from the iterator `cur` visits (all
of them when `end()` is reached earlier). -/
def visited (h : rec_heap) : Nat → rec_ptr → List Nat
  | _, none => []
  | 0, some _ => []
  | n + 1, some c => c :: visited h n (iterator_next h c)

/-- Appending the snippets at the addresses `rs`, one by one, in order. -/
def append_all (h : rec_heap) (c : recs_t) : List Nat → rec_heap × recs_t
  | [] => (h, c)
  | r :: rs => append_all (recs_t.append h c (some r)).1 (recs_t.append h c (some r)).2 rs

/-- The memory cells `p`, `next` of `p`, ... from `p` spell out exactly the
list `l` and then reach `nullptr`. -/
def is_chain (h : rec_heap) : rec_ptr → List Nat → Prop
  | p, [] => p = none
  | p, r :: rs => p = some r ∧ is_chain h (h r).next rs

/-- A chain value `c` represents the list `l` in memory `h`: `head` starts a
null-terminated path through `l`, and `tail` is the last record of `l`. -/
def represents (h : rec_heap) (c : recs_t) (l : List Nat) : Prop :=
  is_chain h c.head l ∧ c.tail = l.getLast?

/-- A memory in which every record has an absent forward link and the LSN
`a + 1` at address `a`. -/
def fresh_heap : rec_heap := fun a => { next := none, lsn := a + 1 }

/-- The chain invariant asserted in `recs_t::empty()`, `!head == !tail`:
`head` is absent if and only if `tail` is absent. -/
def recs_t.head_tail_inv (c : recs_t) : Prop := c.head = none ↔ c.tail = none

/-! ## Progress reporting: `recv_sys_t::report` -/

/-- The method `recv_sys_t::report(time_t time)` on the field `progress_time`:
`if (time - progress_time < 15) return false; progress_time= time; return true;`
The result is the returned value and the new `progress_time`. The type
`time_t` is a signed integer count of seconds; arithmetic on it is modelled
in `Int`, without overflow. -/
def recv_sys_t_report (progress_time time : Int) : Bool × Int :=
  if time - progress_time < 15 then (false, progress_time) else (true, time)

/-- The returned values of the calls `report(t1)`, `report(t2)`, ... made
in this order, starting from the given `progress_time`. -/
def report_all (progress_time : Int) : List Int → List Bool
  | [] => []
  | t :: ts =>
    (recv_sys_t_report progress_time t).1 :: report_all (recv_sys_t_report progress_time t).2 ts

/-! ## Sizing constants -/

/-- The macro `RECV_PARSING_BUF_SIZE`, `(2U << 20)` in unsigned 32-bit
arithmetic. -/
def RECV_PARSING_BUF_SIZE : Nat := (2 <<< 20) % 2 ^ 32

/-- The macro `RECV_SCAN_SIZE`, `(4U << srv_page_size_shift)` in unsigned
32-bit arithmetic; `srv_page_size_shift` is declared outside this header and
is a parameter here. -/
def RECV_SCAN_SIZE (srv_page_size_shift : Nat) : Nat := (4 <<< srv_page_size_shift) % 2 ^ 32

/-- The page size for a page-size shift: `1 << srv_page_size_shift` bytes. -/
def srv_page_size (srv_page_size_shift : Nat) : Nat := 1 <<< srv_page_size_shift

/-! ## The doublewrite shadow list: `recv_dblwr_t` -/

/-- Modelled from the spec: the page frame behind a `byte*` of the list
`recv_dblwr_t::pages`, whose layout is declared outside this header. The spec
describes a frame as a full copy of a page that is searchable by
(tablespace id, page number); the rest of the copy is `body`. -/
structure page_frame where
  space_id : Nat
  page_no : Nat
  body : List Nat
  deriving DecidableEq, Repr

/-- The struct `recv_dblwr_t`: the recovered doublewrite buffer page frames,
`std::deque<byte*> pages`, front first. -/
structure recv_dblwr_t where
  pages : List page_frame := []
  deriving DecidableEq, Repr

/-- The method `recv_dblwr_t::add(byte* page)`: `pages.push_front(page)`. -/
def recv_dblwr_t.add (d : recv_dblwr_t) (page : page_frame) : recv_dblwr_t :=
  { pages := page :: d.pages }

/-- Whether a frame carries the key (tablespace id, page number). -/
def page_frame.has_key (f : page_frame) (space_id page_no : Nat) : Bool :=
  f.space_id == space_id && f.page_no == page_no

/-- Modelled from the spec: the linear scan of `find_page` over a list of
frames, front first. -/
def find_page_scan (space_id page_no : Nat) : List page_frame → Option page_frame
  | [] => none
  | f :: fs => if f.has_key space_id page_no then some f else find_page_scan space_id page_no fs

/-- Modelled from the spec: `recv_dblwr_t::find_page(space_id, page_no)`, which
the header only declares. The spec gives it as a "linear scan of the shadow
list returning the first matching frame or none" (`none` is `NULL`). -/
def recv_dblwr_t.find_page (d : recv_dblwr_t) (space_id page_no : Nat) : Option page_frame :=
  find_page_scan space_id page_no d.pages

/-! ## Checkpoint selection: `recv_find_max_checkpoint` -/

/-- Modelled from the spec: one of the "two fixed-offset header slots, each
holding an LSN and a checksum". -/
structure checkpoint_slot where
  lsn : Nat
  checksum : Nat
  deriving DecidableEq, Repr

/-- The values of the output parameter `max_field` of
`recv_find_max_checkpoint`: `LOG_CHECKPOINT_1` or `LOG_CHECKPOINT_2`. -/
inductive checkpoint_field where
  | LOG_CHECKPOINT_1
  | LOG_CHECKPOINT_2
  deriving DecidableEq, Repr

/-- Modelled from the spec: the results of `recv_find_max_checkpoint` in
`dberr_t`, which is declared outside this header: `DB_SUCCESS`, and the
"distinct, fatal status" of the spec for checkpoint-not-found. -/
inductive dberr_t where
  | DB_SUCCESS
  | DB_CHECKPOINT_NOT_FOUND
  deriving DecidableEq, Repr

/-- Modelled from the spec: a slot validates when its stored checksum is the
checksum of its contents; the checksum function `crc` is a parameter. -/
def checkpoint_slot.valid (crc : Nat → Nat) (s : checkpoint_slot) : Bool :=
  s.checksum == crc s.lsn

/-- Modelled from the spec: `recv_find_max_checkpoint(max_field)`, which the
header only declares. It "reads two fixed checkpoint slots from the log
header, validates each independently (checksum), and returns the slot index
holding the higher valid checkpoint LSN. If neither slot validates, returns a
distinct error; if exactly one validates, that one wins unconditionally."
The result is the error code and the value stored in `max_field`, if any. -/
def recv_find_max_checkpoint (crc : Nat → Nat) (slot1 slot2 : checkpoint_slot) :
    dberr_t × Option checkpoint_field :=
  match slot1.valid crc, slot2.valid crc with
  | true, true =>
    if slot1.lsn < slot2.lsn then (dberr_t.DB_SUCCESS, some checkpoint_field.LOG_CHECKPOINT_2)
    else (dberr_t.DB_SUCCESS, some checkpoint_field.LOG_CHECKPOINT_1)
  | true, false => (dberr_t.DB_SUCCESS, some checkpoint_field.LOG_CHECKPOINT_1)
  | false, true => (dberr_t.DB_SUCCESS, some checkpoint_field.LOG_CHECKPOINT_2)
  | false, false => (dberr_t.DB_CHECKPOINT_NOT_FOUND, none)

/-- The slot that a field value designates. -/
def checkpoint_field.slot (slot1 slot2 : checkpoint_slot) : checkpoint_field → checkpoint_slot
  | checkpoint_field.LOG_CHECKPOINT_1 => slot1
  | checkpoint_field.LOG_CHECKPOINT_2 => slot2

/-! ## The per-page buffer: `page_recv_t` -/

/-- The anonymous enum of `page_recv_t`, the recovery state. -/
inductive recv_state where
  | RECV_NOT_PROCESSED
  | RECV_WILL_NOT_READ
  | RECV_BEING_READ
  | RECV_BEING_PROCESSED
  deriving DecidableEq, Repr

/-- The struct `page_recv_t`: the recovery state and buffered records for a
page, with its default member initializers `state= RECV_NOT_PROCESSED`,
`last_offset= 1` and the freshly constructed chain `log`. -/
structure page_recv_t where
  state : recv_state := recv_state.RECV_NOT_PROCESSED
  last_offset : Nat := 1
  log : recs_t := {}
  deriving DecidableEq, Repr

/-- The method `page_recv_t::is_being_processed()`:
`return state == RECV_BEING_PROCESSED`. -/
def page_recv_t.is_being_processed (p : page_recv_t) : Bool :=
  p.state == recv_state.RECV_BEING_PROCESSED

/-- Modelled from the spec: `page_recv_t::trim(start_lsn)`, which the header
only declares. The spec says it "drops leading snippets in that page's chain
with commit LSN below `lsn`" and "returns whether the chain became fully
empty". While the first record has an LSN below `start_lsn` it is unlinked
from the front; the loop stops at the first record that is kept (result
false) or when no record is left (result true, the chain is the empty one).
Each unlinked record uses one unit of `fuel`; `none` means that the fuel ran
out. Releasing the storage of the dropped records is not modelled. -/
def page_recv_t.trim (h : rec_heap) (start_lsn : Nat) : Nat → page_recv_t → Option (Bool × page_recv_t)
  | 0, p =>
    match p.log.head with
    | none => some (true, { p with log := { head := none, tail := none } })
    | some a => if (h a).lsn < start_lsn then none else some (false, p)
  | fuel + 1, p =>
    match p.log.head with
    | none => some (true, { p with log := { head := none, tail := none } })
    | some a =>
      if (h a).lsn < start_lsn then
        page_recv_t.trim h start_lsn fuel { p with log := { head := (h a).next, tail := p.log.tail } }
      else some (false, p)

/-- The commit LSNs of the records at the addresses `l`, in order. -/
def chain_lsns (h : rec_heap) (l : List Nat) : List Nat := l.map (fun a => (h a).lsn)

/-- Whether each snippet of `rs`, appended in order to the chain `c`, has a
commit LSN greater than or equal to the LSN of the snippet that `last()`
returns just before that append (any LSN when `last()` returns `nullptr`). -/
def ordered_appends (h : rec_heap) (c : recs_t) : List Nat → Bool
  | [] => true
  | r :: rs =>
    (match c.last with
      | none => true
      | some t => decide ((h t).lsn ≤ (h r).lsn)) &&
    ordered_appends (recs_t.append h c (some r)).1 (recs_t.append h c (some r)).2 rs

/-- The memory after the snippets at addresses 0, 1 and 2 of `fresh_heap`,
with LSNs 1, 2 and 3, were appended in this order to a fresh chain. -/
def ordered_heap : rec_heap := (append_all fresh_heap {} [0, 1, 2]).1

/-- The chain of the snippets at addresses 0, 1 and 2, LSNs 1, 2 and 3, in
the memory `ordered_heap`. -/
def ordered_page : page_recv_t := { log := (append_all fresh_heap {} [0, 1, 2]).2 }

/-- Every forward link that leaves a record of `U` leads to a record of `U`
whose LSN is not smaller. -/
def edges_monotone (h : rec_heap) (U : List Nat) : Prop :=
  ∀ a ∈ U, ∀ b, (h a).next = some b → b ∈ U ∧ (h a).lsn ≤ (h b).lsn

/-! ## The store of buffered records: `recv_sys_t::pages` -/

/-- The page identifier `page_id_t`, declared outside this header: the
(tablespace id, page number) pair of the spec. -/
structure page_id_t where
  space : Nat
  page_no : Nat
  deriving DecidableEq, Repr

/-- The part of `struct recv_sys_t` that registering a snippet involves: the
map `pages` (`std::map<const page_id_t, page_recv_t>`, as a lookup function),
together with the memory that the snippets live in. Modelled from the spec:
the arena behind `recv_sys_t::alloc` as the cursor `free` over snippet
handles, every handle from `free` on being unused, and the payload bytes of
each snippet (`payload`), which `log_rec_t` itself does not hold. -/
structure recv_sys_t where
  heap : rec_heap
  payload : Nat → List Nat
  free : Nat
  pages : page_id_t → Option page_recv_t

/-- The store before any registration: no page has an entry and no snippet
is allocated; the contents of the unused memory are arbitrary. -/
def recv_sys_t.initial (heap : rec_heap) (payload : Nat → List Nat) : recv_sys_t :=
  { heap := heap, payload := payload, free := 0, pages := fun _ => none }

/-- The effect of `recv_sys_t::add` once the snippet `snippet` with payload
`l` is constructed: it is placed at the handle that `alloc` returns, the
entry of `page_id` is looked up or created with the default `page_recv_t`,
and the snippet is appended to that entry's chain with `recs_t::append`. -/
def recv_sys_t.add_constructed (s : recv_sys_t) (page_id : page_id_t) (snippet : log_rec_t)
    (l : List Nat) : recv_sys_t :=
  { heap := (recs_t.append (fun x => if x = s.free then snippet else s.heap x)
      ((s.pages page_id).getD {}).log (some s.free)).1
    payload := fun x => if x = s.free then l else s.payload x
    free := s.free + 1
    pages := fun q =>
      if q = page_id then
        some { (s.pages page_id).getD {} with
          log := (recs_t.append (fun x => if x = s.free then snippet else s.heap x)
            ((s.pages page_id).getD {}).log (some s.free)).2 }
      else s.pages q }

/-- Modelled from the spec: `recv_sys_t::add(page_id, start_lsn, lsn, l, len)`,
which the header only declares ("Register a redo log snippet for a page").
The spec has the parser, for each page-scoped operation, "resolve/create the
page's Per-Page Redo Buffer entry", "allocate snippet storage via the Arena
Allocator, and append it to that page's chain". The snippet is built by the
constructor `log_rec_t(lsn)`, whose assertion fails for a zero LSN (`none`);
`len` is the length of `l`. -/
def recv_sys_t.add (s : recv_sys_t) (page_id : page_id_t) (_start_lsn lsn : Nat)
    (l : List Nat) : Option recv_sys_t :=
  match log_rec_t.construct lsn with
  | none => none
  | some snippet => some (s.add_constructed page_id snippet l)

/-- One registration: the arguments of a call of `recv_sys_t::add`. -/
structure registration where
  page_id : page_id_t
  start_lsn : Nat
  lsn : Nat
  l : List Nat
  deriving DecidableEq, Repr

/-- The calls of `recv_sys_t::add` for the registrations `regs`, in order. -/
def add_all (s : recv_sys_t) : List registration → Option recv_sys_t
  | [] => some s
  | r :: regs =>
    match s.add r.page_id r.start_lsn r.lsn r.l with
    | none => none
    | some s' => add_all s' regs

/-- The snippets of the chain of `page_id`, each as (commit LSN, payload), in
the order in which the loop from `begin()` visits them within `fuel`
increments; a page without an entry in `pages` has none. -/
def page_snippets (s : recv_sys_t) (page_id : page_id_t) (fuel : Nat) :
    Option (List (Nat × List Nat)) :=
  match s.pages page_id with
  | none => some []
  | some e =>
    (iterate s.heap fuel e.log.begin).map (List.map (fun a => ((s.heap a).lsn, s.payload a)))

/-- The registrations of `regs` for the page `page_id`, each as (commit LSN,
payload), in registration order. -/
def registered_for (regs : List registration) (page_id : page_id_t) : List (Nat × List Nat) :=
  (regs.filter (fun r => decide (r.page_id = page_id))).map (fun r => (r.lsn, r.l))

/-- The invariant of the store with respect to the handles `G page` of the
snippets of each page: each entry's chain represents its handles, pages
without an entry have none, all handles are allocated, and no handle occurs
twice, in one page or in two. -/
structure store_inv (s : recv_sys_t) (G : page_id_t → List Nat) : Prop where
  absent : ∀ p, s.pages p = none → G p = []
  present : ∀ p e, s.pages p = some e → represents s.heap e.log (G p) ∧ G p ≠ []
  allocated : ∀ p, ∀ a ∈ G p, a < s.free
  nodup : ∀ p, (G p).Nodup
  disjoint : ∀ p q, p ≠ q → ∀ a ∈ G p, a ∉ G q

/-- The snippets at the handles `G page` carry the LSNs and payloads of the
registrations `regs` for that page, in order. -/
def store_contents (s : recv_sys_t) (G : page_id_t → List Nat) (regs : List registration) : Prop :=
  ∀ p, (G p).map (fun a => ((s.heap a).lsn, s.payload a)) = registered_for regs p

/-- The page P1 of the end-to-end scenario. -/
def page_P1 : page_id_t := { space := 0, page_no := 1 }

/-- The page P2 of the end-to-end scenario. -/
def page_P2 : page_id_t := { space := 0, page_no := 2 }

/-- The registrations of three mini-transactions: two writes to P1 (commit
LSN 20), one write to P2 (commit LSN 30) and one more write to P1 (commit
LSN 40); the payloads are the one-byte lists 1, 2, 3 and 4. -/
def scenario_regs : List registration :=
  [{ page_id := page_P1, start_lsn := 10, lsn := 20, l := [1] },
   { page_id := page_P1, start_lsn := 10, lsn := 20, l := [2] },
   { page_id := page_P2, start_lsn := 20, lsn := 30, l := [3] },
   { page_id := page_P1, start_lsn := 30, lsn := 40, l := [4] }]

/-- Every forward link that leaves a record of `U` leads to a record of `U`. -/
def edges_closed (h : rec_heap) (U : List Nat) : Prop :=
  ∀ a ∈ U, ∀ b, (h a).next = some b → b ∈ U

/-! ## Lemmas on chains -/

theorem iterate_of_is_chain (h : rec_heap) (l : List Nat) :
    ∀ (p : rec_ptr) (fuel : Nat), is_chain h p l → l.length ≤ fuel →
      iterate h fuel p = some l := by
  induction l with
  | nil =>
    intro p fuel hc _
    simp only [is_chain] at hc
    subst hc
    cases fuel <;> rfl
  | cons r rs ih =>
    intro p fuel hc hf
    obtain ⟨hp, hrest⟩ := hc
    subst hp
    cases fuel with
    | zero => simp at hf
    | succ n =>
      have hn : rs.length ≤ n := by simpa using hf
      simp [iterate, iterator_next, ih _ n hrest hn]

/-- Changing memory outside a chain does not change the chain. -/
theorem is_chain_congr (h h' : rec_heap) (l : List Nat) :
    ∀ (p : rec_ptr), (∀ a ∈ l, h' a = h a) → is_chain h p l → is_chain h' p l := by
  induction l with
  | nil => intro p _ hc; exact hc
  | cons r rs ih =>
    intro p hagree hc
    obtain ⟨hp, hrest⟩ := hc
    refine ⟨hp, ?_⟩
    rw [hagree r (List.mem_cons_self _ _)]
    exact ih _ (fun a ha => hagree a (List.mem_cons_of_mem _ ha)) hrest

/-- Linking a record `r` with no successor behind the last record `t` of a
chain extends the chain by `r`. -/
theorem is_chain_snoc (h : rec_heap) (r t : Nat) (l : List Nat) :
    ∀ (p : rec_ptr), (l ++ [t]).Nodup → r ∉ l ++ [t] → (h r).next = none →
      is_chain h p (l ++ [t]) → is_chain (set_next h t (some r)) p (l ++ [t] ++ [r]) := by
  induction l with
  | nil =>
    intro p _ hr hnext hc
    simp only [List.nil_append, is_chain] at hc
    have hrt : r ≠ t := by simpa using hr
    refine ⟨hc.1, ?_, ?_⟩
    · simp [set_next]
    · simp [set_next, hrt, hnext, is_chain]
  | cons x xs ih =>
    intro p hnd hr hnext hc
    obtain ⟨hp, hrest⟩ := hc
    have hxt : x ≠ t := by
      intro hxt
      simp [hxt] at hnd
    have hnd' : (xs ++ [t]).Nodup := (List.nodup_cons.mp hnd).2
    have hr' : r ∉ xs ++ [t] := fun hmem => hr (List.mem_cons_of_mem _ hmem)
    refine ⟨hp, ?_⟩
    have hx : (set_next h t (some r) x).next = (h x).next := by simp [set_next, hxt]
    rw [hx]
    exact ih _ hnd' hr' hnext hrest

theorem set_next_lsn (h : rec_heap) (t : Nat) (q : rec_ptr) (a : Nat) :
    (set_next h t q a).lsn = (h a).lsn := by
  unfold set_next
  split
  · next hat => simp [hat]
  · rfl

theorem append_lsn (h : rec_heap) (c : recs_t) (q : rec_ptr) (a : Nat) :
    ((recs_t.append h c q).1 a).lsn = (h a).lsn := by
  unfold recs_t.append
  split
  · exact set_next_lsn h _ q a
  · rfl

/-- The method `append` writes to memory only at the old tail. -/
theorem append_heap_outside (h : rec_heap) (c : recs_t) (q : rec_ptr) (a : Nat)
    (ha : c.tail ≠ some a) : (recs_t.append h c q).1 a = h a := by
  unfold recs_t.append
  split
  · next t ht =>
    have hat : a ≠ t := by
      intro hat
      exact ha (by rw [ht, hat])
    simp [set_next, hat]
  · rfl

theorem getLast?_mem_of_eq_some {l : List Nat} {a : Nat} (hl : l.getLast? = some a) : a ∈ l :=
  List.mem_of_getLast?_eq_some hl

/-- One `append` of a record that is not yet in the chain and has no
successor extends the represented list at its end. -/
theorem append_represents (h : rec_heap) (c : recs_t) (l : List Nat) (r : Nat)
    (hrep : represents h c l) (hnd : l.Nodup) (hr : r ∉ l) (hnext : (h r).next = none) :
    represents (recs_t.append h c (some r)).1 (recs_t.append h c (some r)).2 (l ++ [r]) := by
  obtain ⟨hchain, htail⟩ := hrep
  rcases List.eq_nil_or_concat l with hnil | ⟨xs, t, hxs⟩
  · subst hnil
    simp only [is_chain] at hchain
    have ht : c.tail = none := by simpa using htail
    simp [recs_t.append, ht, represents, is_chain, hnext]
  · rw [List.concat_eq_append] at hxs
    subst hxs
    have ht : c.tail = some t := by simpa using htail
    have hsnoc := is_chain_snoc h r t xs c.head hnd hr hnext hchain
    simp only [recs_t.append, ht, represents]
    exact ⟨hsnoc, by simp⟩

theorem append_all_represents (rs : List Nat) :
    ∀ (h : rec_heap) (c : recs_t) (l : List Nat), represents h c l → (l ++ rs).Nodup →
      (∀ r ∈ rs, (h r).next = none) →
      represents (append_all h c rs).1 (append_all h c rs).2 (l ++ rs) := by
  induction rs with
  | nil =>
    intro h c l hrep _ _
    simpa [append_all] using hrep
  | cons r rs ih =>
    intro h c l hrep hnd hfresh
    have hnd' : ((l ++ [r]) ++ rs).Nodup := by simpa using hnd
    have hl : l.Nodup := (List.nodup_append.mp hnd).1
    have hr : r ∉ l := by
      intro hmem
      have := (List.nodup_append.mp hnd).2.2
      exact this hmem (List.mem_cons_self _ _)
    have hstep := append_represents h c l r hrep hl hr (hfresh r (List.mem_cons_self _ _))
    have hfresh' : ∀ x ∈ rs, ((recs_t.append h c (some r)).1 x).next = none := by
      intro x hx
      have hxl : x ∉ l := by
        intro hmem
        exact (List.nodup_append.mp hnd).2.2 hmem (List.mem_cons_of_mem _ hx)
      have hout : (recs_t.append h c (some r)).1 x = h x := by
        apply append_heap_outside
        intro hcx
        rw [hrep.2] at hcx
        exact hxl (getLast?_mem_of_eq_some hcx)
      rw [hout]
      exact hfresh x (List.mem_cons_of_mem _ hx)
    have := ih _ _ (l ++ [r]) hstep hnd' hfresh'
    simpa [append_all] using this

/-- The freshly constructed chain represents the empty list. -/
theorem represents_fresh (h : rec_heap) : represents h {} [] := by
  simp [represents, is_chain]

/-! ## The claims -/

/-- C1: for distinct snippets `rs`, each with an absent forward link,
appended one by one to a freshly constructed chain, the loop from `begin()`
reaches `end()` and visits exactly `rs`, in append order. -/
theorem C1_iteration_order_is_append_order (h0 : rec_heap) (rs : List Nat) (fuel : Nat)
    (hdistinct : rs.Nodup) (hfresh : ∀ r ∈ rs, (h0 r).next = none)
    (hfuel : rs.length ≤ fuel) :
    iterate (append_all h0 {} rs).1 fuel (append_all h0 {} rs).2.begin = some rs := by
  have hrep := append_all_represents rs h0 {} [] (represents_fresh h0)
    (by simpa using hdistinct) hfresh
  simp only [List.nil_append] at hrep
  exact iterate_of_is_chain _ rs _ fuel hrep.1 hfuel

theorem C1_iteration_order_is_append_order_witness :
    iterate (append_all fresh_heap {} [5, 2, 9]).1 3
      (append_all fresh_heap {} [5, 2, 9]).2.begin = some [5, 2, 9] :=
  C1_iteration_order_is_append_order fresh_heap [5, 2, 9] 3 (by decide)
    (by intro r _; rfl) (by decide)

theorem append_head_tail_inv (h : rec_heap) (c : recs_t) (r : Nat)
    (hinv : c.head_tail_inv) : (recs_t.append h c (some r)).2.head_tail_inv := by
  unfold recs_t.head_tail_inv at *
  unfold recs_t.append
  split
  · next t ht =>
    have hhead : c.head ≠ none := fun hh => by simp [hinv.mp hh] at ht
    simp [hhead]
  · simp

theorem append_all_head_tail (rs : List Nat) :
    ∀ (h : rec_heap) (c : recs_t), c.head_tail_inv →
      (append_all h c rs).2.head_tail_inv ∧
        ((append_all h c rs).2.head = none ↔ c.head = none ∧ rs = []) := by
  induction rs with
  | nil => intro h c hinv; simpa [append_all] using hinv
  | cons r rs ih =>
    intro h c hinv
    have hstep := append_head_tail_inv h c r hinv
    obtain ⟨h1, h2⟩ := ih (recs_t.append h c (some r)).1 (recs_t.append h c (some r)).2 hstep
    refine ⟨by simpa [append_all] using h1, ?_⟩
    have hne : (recs_t.append h c (some r)).2.head ≠ none := by
      unfold recs_t.append
      split
      · next t ht =>
        intro hh
        have : c.tail = none := hinv.mp hh
        simp [this] at ht
      · simp
    simp only [append_all, h2]
    simp [hne]

/-- C2: the invariant "head is absent iff tail is absent" holds for the
freshly constructed chain and is preserved by every append of a snippet;
hence on every chain built by appending snippets `rs` the assertion in
`empty()` holds and `empty()` returns true exactly when `rs` is empty. -/
theorem C2_head_tail_invariant (h : rec_heap) (c : recs_t) (r : Nat) (rs : List Nat) :
    (({} : recs_t).head_tail_inv) ∧
    (c.head_tail_inv → (recs_t.append h c (some r)).2.head_tail_inv) ∧
    ((append_all h {} rs).2.head_tail_inv) ∧
    recs_t.empty (append_all h {} rs).2 = some rs.isEmpty := by
  have hfresh : ({} : recs_t).head_tail_inv := by simp [recs_t.head_tail_inv]
  obtain ⟨h1, h2⟩ := append_all_head_tail rs h {} hfresh
  refine ⟨hfresh, append_head_tail_inv h c r, h1, ?_⟩
  unfold recs_t.head_tail_inv at h1
  have hiso : (append_all h {} rs).2.head.isNone = (append_all h {} rs).2.tail.isNone := by
    rw [Bool.eq_iff_iff]
    simpa [Option.isNone_iff_eq_none] using h1
  unfold recs_t.empty
  rw [if_pos hiso]
  congr 1
  rw [Bool.eq_iff_iff]
  simp [Option.isNone_iff_eq_none, h2, List.isEmpty_iff]

/-- A call that returns true was made at least 15 seconds after the
`progress_time` at the start of the run. -/
theorem report_all_true_ge (ts : List Int) :
    ∀ (p : Int) (j : Nat) (tj : Int), ts[j]? = some tj →
      (report_all p ts)[j]? = some true → 15 ≤ tj - p := by
  induction ts with
  | nil => intro p j tj hj; simp at hj
  | cons t ts ih =>
    intro p j tj hj hres
    cases j with
    | zero =>
      simp only [List.getElem?_cons_zero, Option.some.injEq] at hj
      subst hj
      simp only [report_all, List.getElem?_cons_zero, Option.some.injEq,
        recv_sys_t_report] at hres
      split at hres
      · simp at hres
      · omega
    | succ j =>
      simp only [List.getElem?_cons_succ] at hj
      simp only [report_all, List.getElem?_cons_succ] at hres
      have := ih _ j tj hj hres
      unfold recv_sys_t_report at this
      split at this
      · exact this
      · simp only at this
        omega

/-- C5: in any run of `report` calls, two calls that both return true are
at least 15 seconds apart (the later time minus the earlier one). -/
theorem C5_report_rate_limited (p : Int) (ts : List Int) (i j : Nat) (ti tj : Int)
    (hij : i < j) (hi : ts[i]? = some ti) (hj : ts[j]? = some tj)
    (hri : (report_all p ts)[i]? = some true) (hrj : (report_all p ts)[j]? = some true) :
    15 ≤ tj - ti := by
  induction ts generalizing p i j with
  | nil => simp at hi
  | cons t ts ih =>
    cases j with
    | zero => omega
    | succ j =>
      simp only [List.getElem?_cons_succ] at hj
      simp only [report_all, List.getElem?_cons_succ] at hrj
      cases i with
      | zero =>
        simp only [List.getElem?_cons_zero, Option.some.injEq] at hi
        subst hi
        simp only [report_all, List.getElem?_cons_zero, Option.some.injEq] at hri
        have hstate : (recv_sys_t_report p t).2 = t := by
          unfold recv_sys_t_report at hri ⊢
          split
          · next hlt => simp [hlt] at hri
          · rfl
        rw [hstate] at hrj
        exact report_all_true_ge ts t j tj hj hrj
      | succ i =>
        simp only [List.getElem?_cons_succ] at hi
        simp only [report_all, List.getElem?_cons_succ] at hri
        exact ih _ i j (by omega) hi hj hri hrj

theorem C5_report_rate_limited_witness :
    (15 : Int) ≤ 40 - 20 :=
  C5_report_rate_limited 0 [20, 5, 30, 40] 0 3 20 40 (by decide) (by decide) (by decide)
    (by decide) (by decide)

/-- C6: `report(time)` returns true iff `time - progress_time >= 15`; it
sets `progress_time` to `time` when it returns true and leaves it unchanged
when it returns false. -/
theorem C6_report_result (progress_time time : Int) :
    ((recv_sys_t_report progress_time time).1 = true ↔ 15 ≤ time - progress_time) ∧
    ((recv_sys_t_report progress_time time).1 = true →
      (recv_sys_t_report progress_time time).2 = time) ∧
    ((recv_sys_t_report progress_time time).1 = false →
      (recv_sys_t_report progress_time time).2 = progress_time) := by
  unfold recv_sys_t_report
  split
  · next hlt =>
    refine ⟨?_, ?_, ?_⟩
    · simp; omega
    · simp
    · simp
  · next hge =>
    refine ⟨?_, ?_, ?_⟩
    · simp; omega
    · simp
    · simp

/-- C8: for every page-size shift from 12 to 16, `RECV_SCAN_SIZE` is
`4 * 2^shift` without 32-bit wrap-around and is 4 times the page size, and
`RECV_PARSING_BUF_SIZE` is `2 * 2^20`, an exact multiple of `RECV_SCAN_SIZE`
and at least 8 times as large. -/
theorem C8_sizing_constants (shift : Nat) (hlo : 12 ≤ shift) (hhi : shift ≤ 16) :
    RECV_PARSING_BUF_SIZE = 2 * 2 ^ 20 ∧
    4 <<< shift < 2 ^ 32 ∧
    RECV_SCAN_SIZE shift = 4 * 2 ^ shift ∧
    RECV_SCAN_SIZE shift = 4 * srv_page_size shift ∧
    RECV_SCAN_SIZE shift ∣ RECV_PARSING_BUF_SIZE ∧
    8 * RECV_SCAN_SIZE shift ≤ RECV_PARSING_BUF_SIZE := by
  interval_cases shift <;>
    refine ⟨by decide, by decide, by decide, by decide, ?_, by decide⟩ <;>
    simp only [RECV_SCAN_SIZE, RECV_PARSING_BUF_SIZE] <;> decide

theorem C8_sizing_constants_witness :
    RECV_SCAN_SIZE 14 ∣ RECV_PARSING_BUF_SIZE ∧ RECV_SCAN_SIZE 14 = 4 * srv_page_size 14 :=
  ⟨(C8_sizing_constants 14 (by decide) (by decide)).2.2.2.2.1,
   (C8_sizing_constants 14 (by decide) (by decide)).2.2.2.1⟩

theorem find_page_scan_none (space_id page_no : Nat) (fs : List page_frame) :
    find_page_scan space_id page_no fs = none ↔
      ∀ f ∈ fs, f.has_key space_id page_no = false := by
  induction fs with
  | nil => simp [find_page_scan]
  | cons f fs ih =>
    unfold find_page_scan
    by_cases hk : f.has_key space_id page_no = true
    · simp [hk]
    · simp only [hk, Bool.false_eq_true, if_false, ih, List.mem_cons, forall_eq_or_imp]
      simp [hk]

theorem find_page_scan_some (space_id page_no : Nat) (fs : List page_frame) (g : page_frame) :
    find_page_scan space_id page_no fs = some g →
      ∃ before after, fs = before ++ g :: after ∧ g.has_key space_id page_no = true ∧
        ∀ f ∈ before, f.has_key space_id page_no = false := by
  induction fs with
  | nil => simp [find_page_scan]
  | cons f fs ih =>
    unfold find_page_scan
    by_cases hk : f.has_key space_id page_no = true
    · intro hfg
      simp only [hk, if_true, Option.some.injEq] at hfg
      subst hfg
      exact ⟨[], fs, rfl, hk, by simp⟩
    · intro hfg
      simp only [hk, Bool.false_eq_true, if_false] at hfg
      obtain ⟨before, after, hsplit, hg, hbefore⟩ := ih hfg
      refine ⟨f :: before, after, by simp [hsplit], hg, ?_⟩
      intro x hx
      rcases List.mem_cons.mp hx with hxf | hxb
      · subst hxf
        simpa using hk
      · exact hbefore x hxb

/-- C4: after `add(A)` then `add(B)` for frames with the same key,
`find_page` on that key returns `B`; in general `find_page` returns the first
frame of the list that matches the key, and none exactly when no frame
matches. -/
theorem C4_find_page_most_recent (d : recv_dblwr_t) (A B : page_frame) (space_id page_no : Nat)
    (_hA : A.space_id = space_id ∧ A.page_no = page_no)
    (hB : B.space_id = space_id ∧ B.page_no = page_no) :
    ((d.add A).add B).find_page space_id page_no = some B ∧
    (d.find_page space_id page_no = none ↔
      ∀ f ∈ d.pages, ¬ (f.space_id = space_id ∧ f.page_no = page_no)) ∧
    (∀ g, d.find_page space_id page_no = some g →
      ∃ before after, d.pages = before ++ g :: after ∧
        (g.space_id = space_id ∧ g.page_no = page_no) ∧
        ∀ f ∈ before, ¬ (f.space_id = space_id ∧ f.page_no = page_no)) := by
  have hkey : ∀ f : page_frame, f.has_key space_id page_no = true ↔
      (f.space_id = space_id ∧ f.page_no = page_no) := by
    intro f
    simp [page_frame.has_key]
  have hkeyf : ∀ f : page_frame, f.has_key space_id page_no = false ↔
      ¬ (f.space_id = space_id ∧ f.page_no = page_no) := by
    intro f
    rw [← hkey f]
    simp
  refine ⟨?_, ?_, ?_⟩
  · simp [recv_dblwr_t.find_page, recv_dblwr_t.add, find_page_scan, (hkey B).mpr hB]
  · unfold recv_dblwr_t.find_page
    rw [find_page_scan_none]
    exact forall_congr' fun f => imp_congr_right fun _ => hkeyf f
  · intro g hg
    obtain ⟨before, after, hsplit, hgk, hbefore⟩ := find_page_scan_some space_id page_no d.pages g hg
    exact ⟨before, after, hsplit, (hkey g).mp hgk, fun f hf => (hkeyf f).mp (hbefore f hf)⟩

theorem C4_find_page_most_recent_witness :
    (((recv_dblwr_t.mk [⟨7, 1, [0]⟩]).add ⟨3, 4, [1, 1]⟩).add ⟨3, 4, [2, 2]⟩).find_page 3 4
      = some ⟨3, 4, [2, 2]⟩ :=
  (C4_find_page_most_recent (recv_dblwr_t.mk [⟨7, 1, [0]⟩]) ⟨3, 4, [1, 1]⟩ ⟨3, 4, [2, 2]⟩ 3 4
    (by decide) (by decide)).1

/-- C7: `recv_find_max_checkpoint` validates the two slots independently.
If exactly one slot validates it is selected whatever the other LSN is; if
both validate the selected slot carries the higher LSN; if neither validates
the result is the checkpoint-not-found error and no slot. With slot 1 at LSN
100 valid and slot 2 at LSN 200 invalid, slot 1 is selected. -/
theorem C7_find_max_checkpoint (crc : Nat → Nat) (slot1 slot2 : checkpoint_slot) :
    (slot1.valid crc = true ∧ slot2.valid crc = false →
      recv_find_max_checkpoint crc slot1 slot2 =
        (dberr_t.DB_SUCCESS, some checkpoint_field.LOG_CHECKPOINT_1)) ∧
    (slot1.valid crc = false ∧ slot2.valid crc = true →
      recv_find_max_checkpoint crc slot1 slot2 =
        (dberr_t.DB_SUCCESS, some checkpoint_field.LOG_CHECKPOINT_2)) ∧
    (slot1.valid crc = true ∧ slot2.valid crc = true →
      ∃ f, recv_find_max_checkpoint crc slot1 slot2 = (dberr_t.DB_SUCCESS, some f) ∧
        slot1.lsn ≤ (f.slot slot1 slot2).lsn ∧ slot2.lsn ≤ (f.slot slot1 slot2).lsn) ∧
    (slot1.valid crc = false ∧ slot2.valid crc = false →
      recv_find_max_checkpoint crc slot1 slot2 = (dberr_t.DB_CHECKPOINT_NOT_FOUND, none)) ∧
    (∀ f, (recv_find_max_checkpoint crc slot1 slot2).2 = some f →
      (f.slot slot1 slot2).valid crc = true ∧
        (recv_find_max_checkpoint crc slot1 slot2).1 = dberr_t.DB_SUCCESS) ∧
    recv_find_max_checkpoint (fun l => l + 1) ⟨100, 101⟩ ⟨200, 0⟩ =
      (dberr_t.DB_SUCCESS, some checkpoint_field.LOG_CHECKPOINT_1) ∧
    recv_find_max_checkpoint (fun l => l + 1) ⟨100, 0⟩ ⟨200, 0⟩ =
      (dberr_t.DB_CHECKPOINT_NOT_FOUND, none) := by
  refine ⟨?_, ?_, ?_, ?_, ?_, by decide, by decide⟩
  · rintro ⟨h1, h2⟩
    simp [recv_find_max_checkpoint, h1, h2]
  · rintro ⟨h1, h2⟩
    simp [recv_find_max_checkpoint, h1, h2]
  · rintro ⟨h1, h2⟩
    by_cases hlt : slot1.lsn < slot2.lsn
    · refine ⟨checkpoint_field.LOG_CHECKPOINT_2, ?_, ?_, ?_⟩
      · simp [recv_find_max_checkpoint, h1, h2, hlt]
      · simp only [checkpoint_field.slot]; omega
      · simp only [checkpoint_field.slot]; omega
    · refine ⟨checkpoint_field.LOG_CHECKPOINT_1, ?_, ?_, ?_⟩
      · simp [recv_find_max_checkpoint, h1, h2, hlt]
      · simp only [checkpoint_field.slot]; omega
      · simp only [checkpoint_field.slot]; omega
  · rintro ⟨h1, h2⟩
    simp [recv_find_max_checkpoint, h1, h2]
  · intro f hf
    unfold recv_find_max_checkpoint at hf ⊢
    cases h1 : slot1.valid crc <;> cases h2 : slot2.valid crc <;> simp only [h1, h2] at hf ⊢
    · simp at hf
    · simp only [Option.some.injEq] at hf
      subst hf
      simp [checkpoint_field.slot, h2]
    · simp only [Option.some.injEq] at hf
      subst hf
      simp [checkpoint_field.slot, h1]
    · split at hf
      · simp only [Option.some.injEq] at hf
        subst hf
        simp [checkpoint_field.slot, h2, *]
      · simp only [Option.some.injEq] at hf
        subst hf
        simp [checkpoint_field.slot, h1, *]

/-- The loop of `trim` on a chain whose head spells out `l`: it stops with
the longest suffix of `l` that starts at a record which is kept. -/
theorem trim_spec (h : rec_heap) (start_lsn : Nat) (l : List Nat) :
    ∀ (fuel : Nat) (p : page_recv_t), is_chain h p.log.head l →
      (l ≠ [] → p.log.tail = l.getLast?) → l.length ≤ fuel →
      ∃ p', page_recv_t.trim h start_lsn fuel p =
          some ((l.dropWhile (fun a => decide ((h a).lsn < start_lsn))).isEmpty, p') ∧
        represents h p'.log (l.dropWhile (fun a => decide ((h a).lsn < start_lsn))) ∧
        p'.state = p.state ∧ p'.last_offset = p.last_offset := by
  induction l with
  | nil =>
    intro fuel p hc _ _
    simp only [is_chain] at hc
    refine ⟨{ p with log := { head := none, tail := none } }, ?_, ?_, rfl, rfl⟩
    · cases fuel <;> simp [page_recv_t.trim, hc]
    · simp [represents, is_chain]
  | cons a rest ih =>
    intro fuel p hc htail hfuel
    obtain ⟨hhead, hrest⟩ := hc
    by_cases hlt : (h a).lsn < start_lsn
    · cases fuel with
      | zero => simp at hfuel
      | succ n =>
        have hn : rest.length ≤ n := by simpa using hfuel
        have htail' : rest ≠ [] →
            ({ p with log := { head := (h a).next, tail := p.log.tail } } : page_recv_t).log.tail
              = rest.getLast? := by
          intro hne
          obtain ⟨b, bs, hb⟩ := List.exists_cons_of_ne_nil hne
          have := htail (by simp)
          simp only [this, hb, List.getLast?_cons_cons]
        obtain ⟨p', hrun, hrep, hst, hoff⟩ :=
          ih n { p with log := { head := (h a).next, tail := p.log.tail } } hrest htail' hn
        refine ⟨p', ?_, ?_, hst, hoff⟩
        · simp only [page_recv_t.trim, hhead, hlt, if_true]
          simpa [List.dropWhile_cons, hlt] using hrun
        · simpa [List.dropWhile_cons, hlt] using hrep
    · refine ⟨p, ?_, ?_, rfl, rfl⟩
      · cases fuel <;> simp [page_recv_t.trim, hhead, hlt, List.dropWhile_cons]
      · simp only [List.dropWhile_cons, hlt, decide_False, Bool.false_eq_true, if_false]
        exact ⟨⟨hhead, hrest⟩, htail (by simp)⟩

theorem empty_of_represents (h : rec_heap) (c : recs_t) (l : List Nat)
    (hrep : represents h c l) : c.empty = some l.isEmpty := by
  obtain ⟨hc, ht⟩ := hrep
  cases l with
  | nil =>
    simp only [is_chain] at hc
    simp [recs_t.empty, hc, ht]
  | cons a rest =>
    obtain ⟨hhead, _⟩ := hc
    obtain ⟨b, hb⟩ : ∃ b, (a :: rest).getLast? = some b :=
      ⟨(a :: rest).getLast (by simp), List.getLast?_eq_getLast _ (by simp)⟩
    simp [recs_t.empty, hhead, ht, hb]

/-- In a list with non-decreasing LSNs no record has a higher LSN than the
last one. -/
theorem lsn_le_last_of_sorted (h : rec_heap) (l : List Nat) :
    (chain_lsns h l).Sorted (fun x y => x ≤ y) → ∀ t, l.getLast? = some t →
      ∀ x ∈ l, (h x).lsn ≤ (h t).lsn := by
  induction l with
  | nil => intro _ t ht; simp at ht
  | cons a rest ih =>
    intro hs t ht x hx
    unfold chain_lsns at hs ih
    rw [List.map_cons, List.sorted_cons] at hs
    cases rest with
    | nil =>
      simp only [List.getLast?_singleton, Option.some.injEq] at ht
      simp only [List.mem_singleton] at hx
      subst ht hx
      exact le_refl _
    | cons b bs =>
      rw [List.getLast?_cons_cons] at ht
      have htmem : t ∈ b :: bs := List.mem_of_getLast?_eq_some ht
      rcases List.mem_cons.mp hx with hxa | hxr
      · subst hxa
        exact hs.1 _ (List.mem_map_of_mem (fun a => (h a).lsn) htmem)
      · exact ih hs.2 t ht x hxr

/-- C3: on a chain that represents the list `l`, `trim` with enough fuel
returns; it removes exactly the leading snippets of `l` with LSN below
`start_lsn` (its longest such prefix), leaves the remaining snippets in
their original order, and returns true if and only if the chain is empty
afterwards. In particular, on a chain in the non-decreasing LSN order of
the data model, trimming with a `start_lsn` above the LSN of the last
snippet empties the chain and returns true. -/
theorem C3_trim_drops_leading_prefix (h : rec_heap) (p : page_recv_t) (l : List Nat)
    (start_lsn fuel : Nat) (hrep : represents h p.log l) (hfuel : l.length ≤ fuel) :
    ∃ b p', page_recv_t.trim h start_lsn fuel p = some (b, p') ∧
      represents h p'.log (l.dropWhile (fun a => decide ((h a).lsn < start_lsn))) ∧
      iterate h fuel p'.log.begin =
        some (l.dropWhile (fun a => decide ((h a).lsn < start_lsn))) ∧
      (b = true ↔ l.dropWhile (fun a => decide ((h a).lsn < start_lsn)) = []) ∧
      p'.log.empty = some b ∧
      ((chain_lsns h l).Sorted (fun x y => x ≤ y) →
        (∀ t, p.log.last = some t → (h t).lsn < start_lsn) →
        b = true ∧ p'.log = {}) := by
  obtain ⟨p', hrun, hrep', _, _⟩ :=
    trim_spec h start_lsn l fuel p hrep.1 (fun _ => hrep.2) hfuel
  refine ⟨_, p', hrun, hrep', ?_, ?_, ?_, ?_⟩
  · apply iterate_of_is_chain _ _ _ _ hrep'.1
    exact le_trans (List.Sublist.length_le (List.dropWhile_sublist _)) hfuel
  · simp [List.isEmpty_iff]
  · exact empty_of_represents h _ _ hrep'
  · intro hsorted hlast
    have hall : l.dropWhile (fun a => decide ((h a).lsn < start_lsn)) = [] := by
      rw [List.dropWhile_eq_nil_iff]
      intro x hx
      cases hl : l.getLast? with
      | none =>
        rw [List.getLast?_eq_none_iff] at hl
        simp [hl] at hx
      | some t =>
        have hle := lsn_le_last_of_sorted h l hsorted t hl x hx
        have hlt := hlast t (by rw [recs_t.last, hrep.2, hl])
        simp only [decide_eq_true_eq]
        omega
    rw [hall] at hrep' ⊢
    refine ⟨by simp, ?_⟩
    obtain ⟨hc, ht⟩ := hrep'
    simp only [is_chain] at hc
    simp only [List.getLast?_nil] at ht
    cases hlog : p'.log with
    | mk hd tl =>
      rw [hlog] at hc ht
      simp only at hc ht
      rw [hc, ht]

theorem C3_trim_drops_leading_prefix_witness :
    ∃ b p', page_recv_t.trim ordered_heap 3 3 ordered_page = some (b, p') ∧
      iterate ordered_heap 3 p'.log.begin = some [2] ∧ p'.log.empty = some b := by
  obtain ⟨b, p', hrun, _, hiter, _, hempty, _⟩ :=
    C3_trim_drops_leading_prefix ordered_heap ordered_page [0, 1, 2] 3 3
      (by
        have := append_all_represents [0, 1, 2] fresh_heap {} [] (represents_fresh _)
          (by decide) (by intro r _; rfl)
        simpa [ordered_heap, ordered_page] using this)
      (by decide)
  refine ⟨b, p', hrun, ?_, hempty⟩
  rw [hiter]
  simp [ordered_heap, append_all, recs_t.append, set_next, fresh_heap]

theorem append_edges_monotone (h : rec_heap) (c : recs_t) (U : List Nat) (r : Nat)
    (hmono : edges_monotone h U) (hr : r ∈ U)
    (hord : ∀ t, c.last = some t → (h t).lsn ≤ (h r).lsn) :
    edges_monotone (recs_t.append h c (some r)).1 U := by
  intro a ha b hb
  cases ht : c.tail with
  | none =>
    simp only [recs_t.append, ht] at hb ⊢
    exact hmono a ha b hb
  | some t =>
    simp only [recs_t.append, ht] at hb ⊢
    rw [set_next_lsn, set_next_lsn]
    by_cases hat : a = t
    · subst hat
      have hbr : b = r := by simpa [set_next] using hb.symm
      subst hbr
      exact ⟨hr, hord a (by rw [recs_t.last, ht])⟩
    · have hsame : set_next h t (some r) a = h a := by simp [set_next, hat]
      rw [hsame] at hb
      exact hmono a ha b hb

theorem append_all_edges_monotone (U : List Nat) (rs : List Nat) :
    ∀ (h : rec_heap) (c : recs_t), edges_monotone h U →
      (∀ a, c.head = some a → a ∈ U) → (∀ a, c.tail = some a → a ∈ U) →
      (∀ r ∈ rs, r ∈ U) → ordered_appends h c rs = true →
      edges_monotone (append_all h c rs).1 U ∧
        ∀ a, (append_all h c rs).2.head = some a → a ∈ U := by
  induction rs with
  | nil =>
    intro h c hmono hhead _ _ _
    exact ⟨hmono, hhead⟩
  | cons r rs ih =>
    intro h c hmono hhead _ hsub hord
    simp only [ordered_appends, Bool.and_eq_true] at hord
    have hr : r ∈ U := hsub r (List.mem_cons_self _ _)
    have hlast : ∀ t, c.last = some t → (h t).lsn ≤ (h r).lsn := by
      intro t ht
      have := hord.1
      rw [ht] at this
      simpa using this
    have hmono' := append_edges_monotone h c U r hmono hr hlast
    have hhead' : ∀ a, (recs_t.append h c (some r)).2.head = some a → a ∈ U := by
      intro a ha
      cases ht : c.tail with
      | none =>
        simp only [recs_t.append, ht, Option.some.injEq] at ha
        exact ha ▸ hr
      | some t =>
        simp only [recs_t.append, ht] at ha
        exact hhead a ha
    have htail' : ∀ a, (recs_t.append h c (some r)).2.tail = some a → a ∈ U := by
      intro a ha
      cases ht : c.tail with
      | none =>
        simp only [recs_t.append, ht, Option.some.injEq] at ha
        exact ha ▸ hr
      | some t =>
        simp only [recs_t.append, ht, Option.some.injEq] at ha
        exact ha ▸ hr
    exact ih _ _ hmono' hhead' htail' (fun x hx => hsub x (List.mem_cons_of_mem _ hx)) hord.2

theorem visited_lsn_ge (h : rec_heap) (U : List Nat) (hmono : edges_monotone h U) :
    ∀ (n : Nat) (c : Nat), c ∈ U → ∀ x ∈ visited h n (some c), (h c).lsn ≤ (h x).lsn := by
  intro n
  induction n with
  | zero => intro c _ x hx; simp [visited] at hx
  | succ n ih =>
    intro c hc x hx
    simp only [visited, List.mem_cons] at hx
    rcases hx with hxc | hxr
    · subst hxc
      exact le_refl _
    · cases hnext : iterator_next h c with
      | none => simp [hnext, visited] at hxr
      | some b =>
        rw [hnext] at hxr
        obtain ⟨hbU, hle⟩ := hmono c hc b hnext
        exact le_trans hle (ih b hbU x hxr)

theorem visited_sorted (h : rec_heap) (U : List Nat) (hmono : edges_monotone h U) :
    ∀ (n : Nat) (p : rec_ptr), (∀ a, p = some a → a ∈ U) →
      (chain_lsns h (visited h n p)).Sorted (fun x y => x ≤ y) := by
  intro n
  induction n with
  | zero =>
    intro p _
    cases p <;> simp [visited, chain_lsns]
  | succ n ih =>
    intro p hp
    cases p with
    | none => simp [visited, chain_lsns]
    | some c =>
      have hc : c ∈ U := hp c rfl
      simp only [visited, chain_lsns, List.map_cons, List.sorted_cons]
      refine ⟨?_, ?_⟩
      · intro y hy
        obtain ⟨x, hx, hxy⟩ := List.mem_map.mp hy
        subst hxy
        cases hnext : iterator_next h c with
        | none => simp [hnext, visited] at hx
        | some b =>
          rw [hnext] at hx
          obtain ⟨hbU, hle⟩ := hmono c hc b hnext
          exact le_trans hle (visited_lsn_ge h U hmono n b hbU x hx)
      · exact ih (iterator_next h c) (fun a ha => (hmono c hc a ha).1)

theorem visited_of_iterate (h : rec_heap) :
    ∀ (fuel : Nat) (p : rec_ptr) (l : List Nat), iterate h fuel p = some l →
      visited h fuel p = l := by
  intro fuel
  induction fuel with
  | zero =>
    intro p l hl
    cases p with
    | none => simpa [iterate, visited] using hl
    | some c => simp [iterate] at hl
  | succ n ih =>
    intro p l hl
    cases p with
    | none => simpa [iterate, visited] using hl
    | some c =>
      simp only [iterate, Option.map_eq_some'] at hl
      obtain ⟨l', hl', hcons⟩ := hl
      subst hcons
      simp [visited, ih _ _ hl']

/-- C9: if the snippets `rs` start with an absent forward link and each is
appended with a commit LSN not below the LSN of the `last()` snippet at that
moment, then after the appends every run of the loop from `begin()` visits
the snippets in non-decreasing LSN order: each prefix of the visit, and the
whole visit when the loop reaches `end()`. -/
theorem C9_chain_lsn_nondecreasing (h0 : rec_heap) (rs : List Nat)
    (hfresh : ∀ r ∈ rs, (h0 r).next = none) (hord : ordered_appends h0 {} rs = true) :
    (∀ n, (chain_lsns (append_all h0 {} rs).1
        (visited (append_all h0 {} rs).1 n (append_all h0 {} rs).2.begin)).Sorted
          (fun x y => x ≤ y)) ∧
    (∀ fuel l, iterate (append_all h0 {} rs).1 fuel (append_all h0 {} rs).2.begin = some l →
      (chain_lsns (append_all h0 {} rs).1 l).Sorted (fun x y => x ≤ y)) := by
  have hinit : edges_monotone h0 rs := by
    intro a ha b hb
    rw [hfresh a ha] at hb
    simp at hb
  obtain ⟨hmono, hhead⟩ := append_all_edges_monotone rs rs h0 {} hinit
    (by intro a ha; simp at ha) (by intro a ha; simp at ha) (fun r hr => hr) hord
  have hvis := fun n => visited_sorted _ rs hmono n (append_all h0 {} rs).2.begin hhead
  refine ⟨hvis, ?_⟩
  intro fuel l hl
  have := hvis fuel
  rwa [visited_of_iterate _ fuel _ l hl] at this

theorem C9_chain_lsn_nondecreasing_witness :
    (chain_lsns (append_all fresh_heap {} [0, 1, 2]).1
        (visited (append_all fresh_heap {} [0, 1, 2]).1 3
          (append_all fresh_heap {} [0, 1, 2]).2.begin)).Sorted (fun x y => x ≤ y) :=
  (C9_chain_lsn_nondecreasing fresh_heap [0, 1, 2] (by intro r _; rfl) (by decide)).1 3

/-! ## Lemmas on the store -/

theorem add_constructed_lsn (s : recv_sys_t) (pid : page_id_t) (sn : log_rec_t) (l : List Nat)
    (x : Nat) :
    ((s.add_constructed pid sn l).heap x).lsn = if x = s.free then sn.lsn else (s.heap x).lsn := by
  simp only [recv_sys_t.add_constructed, append_lsn]
  split <;> rfl

theorem add_constructed_heap_eq (s : recv_sys_t) (pid : page_id_t) (sn : log_rec_t) (l : List Nat)
    (x : Nat) (hx : x ≠ s.free) (htail : ((s.pages pid).getD {}).log.tail ≠ some x) :
    (s.add_constructed pid sn l).heap x = s.heap x := by
  simp only [recv_sys_t.add_constructed]
  rw [append_heap_outside _ _ _ _ htail]
  simp [hx]

theorem registered_for_append (regs : List registration) (r : registration) (p : page_id_t) :
    registered_for (regs ++ [r]) p =
      if r.page_id = p then registered_for regs p ++ [(r.lsn, r.l)] else registered_for regs p := by
  unfold registered_for
  by_cases hp : r.page_id = p
  · simp [List.filter_append, List.filter_cons, hp]
  · simp [List.filter_append, List.filter_cons, hp]

/-- The chain that `add` appends to represents the handles of its page. -/
theorem store_entry_represents (s : recv_sys_t) (G : page_id_t → List Nat)
    (hinv : store_inv s G) (pid : page_id_t) :
    represents s.heap ((s.pages pid).getD {}).log (G pid) := by
  cases hp : s.pages pid with
  | none =>
    rw [hinv.absent pid hp]
    exact represents_fresh _
  | some e => exact (hinv.present pid e hp).1

theorem store_free_not_mem (s : recv_sys_t) (G : page_id_t → List Nat)
    (hinv : store_inv s G) (q : page_id_t) : s.free ∉ G q :=
  fun hmem => lt_irrefl _ (hinv.allocated q _ hmem)

/-- One registration keeps the invariant, with the new handle at the end of
the handles of its page. -/
theorem add_constructed_inv (s : recv_sys_t) (G : page_id_t → List Nat) (pid : page_id_t)
    (sn : log_rec_t) (l : List Nat) (hinv : store_inv s G) (hsn : sn.next = none) :
    store_inv (s.add_constructed pid sn l)
      (fun q => if q = pid then G pid ++ [s.free] else G q) := by
  have hfree := store_free_not_mem s G hinv
  have hrep0 := store_entry_represents s G hinv pid
  have hrep1 : represents (fun x => if x = s.free then sn else s.heap x)
      ((s.pages pid).getD {}).log (G pid) := by
    refine ⟨is_chain_congr s.heap _ (G pid) _ ?_ hrep0.1, hrep0.2⟩
    intro a ha
    have : a ≠ s.free := fun h => hfree pid (h ▸ ha)
    simp [this]
  have hrep2 := append_represents _ _ (G pid) s.free hrep1 (hinv.nodup pid) (hfree pid)
    (by simpa using hsn)
  refine ⟨?_, ?_, ?_, ?_, ?_⟩
  · intro p hp
    by_cases hpp : p = pid
    · simp [recv_sys_t.add_constructed, hpp] at hp
    · simp only [recv_sys_t.add_constructed, hpp, if_false] at hp
      simpa [hpp] using hinv.absent p hp
  · intro p e hp
    by_cases hpp : p = pid
    · subst hpp
      simp only [recv_sys_t.add_constructed, if_true, Option.some.injEq] at hp
      subst hp
      simp only [if_true]
      exact ⟨hrep2, by simp⟩
    · simp only [recv_sys_t.add_constructed, hpp, if_false] at hp
      obtain ⟨hrep, hne⟩ := hinv.present p e hp
      simp only [hpp, if_false]
      refine ⟨⟨is_chain_congr s.heap _ (G p) _ ?_ hrep.1, hrep.2⟩, hne⟩
      intro a ha
      apply add_constructed_heap_eq
      · exact fun h => hfree p (h ▸ ha)
      · intro htail
        rw [hrep0.2] at htail
        exact hinv.disjoint p pid hpp a ha (List.mem_of_getLast?_eq_some htail)
  · intro p a ha
    simp only [recv_sys_t.add_constructed]
    by_cases hpp : p = pid
    · simp only [hpp, if_true, List.mem_append, List.mem_singleton] at ha
      rcases ha with ha | ha
      · exact Nat.lt_succ_of_lt (hinv.allocated pid a ha)
      · omega
    · simp only [hpp, if_false] at ha
      exact Nat.lt_succ_of_lt (hinv.allocated p a ha)
  · intro p
    by_cases hpp : p = pid
    · simp only [hpp, if_true]
      rw [List.nodup_append]
      refine ⟨hinv.nodup pid, List.nodup_singleton _, ?_⟩
      intro a ha hb
      rw [List.mem_singleton] at hb
      exact hfree pid (hb ▸ ha)
    · simpa [hpp] using hinv.nodup p
  · intro p q hpq a ha
    by_cases hpp : p = pid
    · have hqp : q ≠ pid := fun h => hpq (hpp.trans h.symm)
      simp only [hpp, if_true, List.mem_append, List.mem_singleton] at ha
      simp only [hqp, if_false]
      rcases ha with ha | ha
      · exact hinv.disjoint pid q (hpp ▸ hpq) a ha
      · exact ha ▸ hfree q
    · simp only [hpp, if_false] at ha
      by_cases hqp : q = pid
      · simp only [hqp, if_true, List.mem_append, List.mem_singleton, not_or]
        exact ⟨hinv.disjoint p pid hpp a ha, fun h => hfree p (h ▸ ha)⟩
      · simp only [hqp, if_false]
        exact hinv.disjoint p q hpq a ha

/-- One registration adds its (LSN, payload) at the end of the contents of
its page and leaves the contents of every other page as they were. -/
theorem add_constructed_contents (s : recv_sys_t) (G : page_id_t → List Nat)
    (regs : List registration) (r : registration) (hinv : store_inv s G)
    (hcont : store_contents s G regs) :
    store_contents (s.add_constructed r.page_id { next := none, lsn := r.lsn } r.l)
      (fun q => if q = r.page_id then G r.page_id ++ [s.free] else G q) (regs ++ [r]) := by
  have hfree := store_free_not_mem s G hinv
  have hold : ∀ q, (G q).map (fun a =>
      (((s.add_constructed r.page_id { next := none, lsn := r.lsn } r.l).heap a).lsn,
        (s.add_constructed r.page_id { next := none, lsn := r.lsn } r.l).payload a)) =
      registered_for regs q := by
    intro q
    rw [← hcont q]
    apply List.map_congr_left
    intro a ha
    have hne : a ≠ s.free := fun h => hfree q (h ▸ ha)
    rw [add_constructed_lsn]
    simp [recv_sys_t.add_constructed, hne]
  intro p
  rw [registered_for_append]
  by_cases hpp : p = r.page_id
  · subst hpp
    simp only [if_true, List.map_append, hold, List.map_cons, List.map_nil]
    rw [add_constructed_lsn]
    simp [recv_sys_t.add_constructed]
  · have hpp' : ¬ r.page_id = p := fun h => hpp h.symm
    simp only [hpp, hpp', if_false]
    exact hold p

theorem add_of_lsn_ne_zero (s : recv_sys_t) (pid : page_id_t) (start_lsn lsn : Nat)
    (l : List Nat) (hlsn : lsn ≠ 0) :
    s.add pid start_lsn lsn l = some (s.add_constructed pid { next := none, lsn := lsn } l) := by
  simp [recv_sys_t.add, log_rec_t.construct, hlsn]

theorem add_all_inv (rs : List registration) :
    ∀ (s : recv_sys_t) (G : page_id_t → List Nat) (done : List registration),
      store_inv s G → store_contents s G done → (∀ r ∈ rs, r.lsn ≠ 0) →
      ∃ s' G', add_all s rs = some s' ∧ store_inv s' G' ∧ store_contents s' G' (done ++ rs) := by
  induction rs with
  | nil =>
    intro s G done hinv hcont _
    exact ⟨s, G, rfl, hinv, by simpa using hcont⟩
  | cons r rs ih =>
    intro s G done hinv hcont hlsn
    have hstep := add_of_lsn_ne_zero s r.page_id r.start_lsn r.lsn r.l
      (hlsn r (List.mem_cons_self _ _))
    have hinv' := add_constructed_inv s G r.page_id { next := none, lsn := r.lsn } r.l hinv rfl
    have hcont' := add_constructed_contents s G done r hinv hcont
    obtain ⟨s', G', hrun, hinv'', hcont''⟩ :=
      ih _ _ (done ++ [r]) hinv' hcont' (fun x hx => hlsn x (List.mem_cons_of_mem _ hx))
    refine ⟨s', G', ?_, hinv'', by simpa using hcont''⟩
    simp only [add_all, hstep]
    exact hrun

theorem initial_inv (heap : rec_heap) (payload : Nat → List Nat) :
    store_inv (recv_sys_t.initial heap payload) (fun _ => []) ∧
      store_contents (recv_sys_t.initial heap payload) (fun _ => []) [] := by
  refine ⟨⟨?_, ?_, ?_, ?_, ?_⟩, ?_⟩
  · intro p _; rfl
  · intro p e hp; simp [recv_sys_t.initial] at hp
  · intro p a ha; simp at ha
  · intro p; exact List.nodup_nil
  · intro p q _ a ha; simp at ha
  · intro p; simp [registered_for]

theorem registered_for_length_le (regs : List registration) (p : page_id_t) :
    (registered_for regs p).length ≤ regs.length := by
  unfold registered_for
  rw [List.length_map]
  exact List.length_filter_le _ _

/-- What the invariant and the contents give for one page: the loop over its
chain returns the registered snippets, and the page has an entry exactly
when something was registered for it. -/
theorem page_snippets_of_inv (s : recv_sys_t) (G : page_id_t → List Nat)
    (regs : List registration) (hinv : store_inv s G) (hcont : store_contents s G regs)
    (p : page_id_t) (fuel : Nat) (hfuel : regs.length ≤ fuel) :
    page_snippets s p fuel = some (registered_for regs p) ∧
      ((s.pages p).isSome = true ↔ registered_for regs p ≠ []) := by
  have hlen : (G p).length ≤ fuel := by
    have := congrArg List.length (hcont p)
    rw [List.length_map] at this
    rw [this]
    exact le_trans (registered_for_length_le regs p) hfuel
  cases hp : s.pages p with
  | none =>
    have hG := hinv.absent p hp
    have hreg : registered_for regs p = [] := by rw [← hcont p, hG]; rfl
    simp [page_snippets, hp, hreg]
  | some e =>
    obtain ⟨hrep, hne⟩ := hinv.present p e hp
    have hiter := iterate_of_is_chain s.heap (G p) e.log.head fuel hrep.1 hlen
    refine ⟨?_, ?_⟩
    · simp only [page_snippets, hp, recs_t.begin, hiter, Option.map_some']
      rw [hcont p]
    · have : registered_for regs p ≠ [] := by
        rw [← hcont p]
        simpa using hne
      simp [this]

/-- C10: for every sequence `regs` of registrations (with non-zero commit
LSNs, as the constructor of a snippet asserts) into the initially empty
store, the registrations succeed and the chain of each page holds exactly
the snippets registered for that page, in registration order; a page has an
entry exactly when something was registered for it; and one more
registration for another page leaves the entry and the chain of the page as
they were. For the order P1, P1, P2, P1 the chain of P1 holds its three
snippets in that order and the chain of P2 holds its one snippet. -/
theorem C10_chains_hold_registrations_in_order (heap : rec_heap) (payload : Nat → List Nat)
    (regs : List registration) (r : registration) (p : page_id_t) (fuel : Nat)
    (hlsn : ∀ x ∈ regs, x.lsn ≠ 0) (hr : r.lsn ≠ 0) (hfuel : regs.length + 1 ≤ fuel) :
    (add_all (recv_sys_t.initial heap payload) regs).bind (fun s => page_snippets s p fuel) =
      some (registered_for regs p) ∧
    (∃ s, add_all (recv_sys_t.initial heap payload) regs = some s ∧
      ((s.pages p).isSome = true ↔ registered_for regs p ≠ []) ∧
      ∃ s2, s.add r.page_id r.start_lsn r.lsn r.l = some s2 ∧
        page_snippets s2 r.page_id fuel =
          some (registered_for regs r.page_id ++ [(r.lsn, r.l)]) ∧
        (r.page_id ≠ p →
          s2.pages p = s.pages p ∧ page_snippets s2 p fuel = page_snippets s p fuel)) ∧
    (add_all (recv_sys_t.initial heap payload) scenario_regs).bind
        (fun s => page_snippets s page_P1 4) = some [(20, [1]), (20, [2]), (40, [4])] ∧
    (add_all (recv_sys_t.initial heap payload) scenario_regs).bind
        (fun s => page_snippets s page_P2 4) = some [(30, [3])] := by
  obtain ⟨hinv0, hcont0⟩ := initial_inv heap payload
  obtain ⟨s, G, hrun, hinv, hcont⟩ := add_all_inv regs _ _ [] hinv0 hcont0 hlsn
  simp only [List.nil_append] at hcont
  have hpage := page_snippets_of_inv s G regs hinv hcont
  have hstep := add_of_lsn_ne_zero s r.page_id r.start_lsn r.lsn r.l hr
  have hinv2 := add_constructed_inv s G r.page_id { next := none, lsn := r.lsn } r.l hinv rfl
  have hcont2 := add_constructed_contents s G regs r hinv hcont
  have hpage2 := page_snippets_of_inv _ _ (regs ++ [r]) hinv2 hcont2
  have hscen : ∀ q, (add_all (recv_sys_t.initial heap payload) scenario_regs).bind
      (fun s => page_snippets s q 4) = some (registered_for scenario_regs q) := by
    intro q
    obtain ⟨s3, G3, hrun3, hinv3, hcont3⟩ :=
      add_all_inv scenario_regs _ _ [] hinv0 hcont0 (by decide)
    simp only [List.nil_append] at hcont3
    rw [hrun3, Option.some_bind]
    exact (page_snippets_of_inv s3 G3 scenario_regs hinv3 hcont3 q 4 (by decide)).1
  refine ⟨?_, ⟨s, hrun, (hpage p fuel (by omega)).2, _, hstep, ?_, ?_⟩, ?_, ?_⟩
  · rw [hrun, Option.some_bind]
    exact (hpage p fuel (by omega)).1
  · have := (hpage2 r.page_id fuel (by simpa using hfuel)).1
    rw [this, registered_for_append]
    simp
  · intro hne
    have h2 := (hpage2 p fuel (by simpa using hfuel)).1
    rw [registered_for_append, if_neg hne] at h2
    refine ⟨?_, ?_⟩
    · have : ¬ p = r.page_id := fun h => hne h.symm
      simp [recv_sys_t.add_constructed, this]
    · rw [h2, (hpage p fuel (by omega)).1]
  · rw [hscen page_P1]
    decide
  · rw [hscen page_P2]
    decide

theorem C10_chains_hold_registrations_in_order_witness :
    (add_all (recv_sys_t.initial fresh_heap (fun _ => [])) scenario_regs).bind
        (fun s => page_snippets s page_P1 5) = some [(20, [1]), (20, [2]), (40, [4])] :=
  (C10_chains_hold_registrations_in_order fresh_heap (fun _ => []) scenario_regs
    { page_id := page_P2, start_lsn := 40, lsn := 50, l := [5] } page_P1 5
    (by decide) (by decide) (by decide)).1

/-- C11: `add(page)` puts the new frame at the front of the shadow list and
changes nothing else: the list grows by exactly one, and each frame that was
present keeps its value and its order, one position later. -/
theorem C11_add_pushes_front (d : recv_dblwr_t) (page : page_frame) (i : Nat) :
    (d.add page).pages = page :: d.pages ∧
    (d.add page).pages.length = d.pages.length + 1 ∧
    (d.add page).pages[0]? = some page ∧
    (d.add page).pages[i + 1]? = d.pages[i]? ∧
    (d.add page).pages.tail = d.pages := by
  simp [recv_dblwr_t.add]

/-- C12: on a chain that satisfies the class invariant (head absent iff tail
absent), as every chain built by appends does, right after `append(r)` the
call `last()` returns `r` and `empty()` returns false; on the freshly
constructed chain `last()` returns `nullptr`, `empty()` returns true and
`begin()` equals `end()`. -/
theorem C12_last_and_empty_after_append (h : rec_heap) (c : recs_t) (r : Nat) (rs : List Nat)
    (hinv : c.head_tail_inv) :
    (recs_t.append h c (some r)).2.last = some r ∧
    (recs_t.append h c (some r)).2.empty = some false ∧
    (append_all h {} (rs ++ [r])).2.last = some r ∧
    (append_all h {} (rs ++ [r])).2.empty = some false ∧
    ({} : recs_t).last = none ∧
    ({} : recs_t).empty = some true ∧
    ({} : recs_t).begin = ({} : recs_t).end_ := by
  have hstep : ∀ (h' : rec_heap) (c' : recs_t), c'.head_tail_inv →
      (recs_t.append h' c' (some r)).2.last = some r ∧
        (recs_t.append h' c' (some r)).2.empty = some false := by
    intro h' c' hinv'
    unfold recs_t.head_tail_inv at hinv'
    cases ht : c'.tail with
    | none => simp [recs_t.append, ht, recs_t.last, recs_t.empty]
    | some t =>
      have hhead : c'.head ≠ none := fun hh => by simp [hinv'.mp hh] at ht
      obtain ⟨a, ha⟩ := Option.ne_none_iff_exists'.mp hhead
      simp [recs_t.append, ht, recs_t.last, recs_t.empty, ha]
  have hall : ∀ (l : List Nat) (h' : rec_heap) (c' : recs_t),
      append_all h' c' (l ++ [r]) =
        recs_t.append (append_all h' c' l).1 (append_all h' c' l).2 (some r) := by
    intro l
    induction l with
    | nil => intro h' c'; simp [append_all]
    | cons x xs ih => intro h' c'; simp [append_all, ih]
  have hreach := (append_all_head_tail rs h {} (by simp [recs_t.head_tail_inv])).1
  rw [hall rs h {}]
  refine ⟨(hstep h c hinv).1, (hstep h c hinv).2, (hstep _ _ hreach).1, (hstep _ _ hreach).2,
    rfl, rfl, rfl⟩

theorem C12_last_and_empty_after_append_witness :
    (recs_t.append fresh_heap { head := some 3, tail := some 5 } (some 7)).2.last = some 7 ∧
    (recs_t.append fresh_heap { head := some 3, tail := some 5 } (some 7)).2.empty = some false :=
  ⟨(C12_last_and_empty_after_append fresh_heap { head := some 3, tail := some 5 } 7 [1, 2]
      (by simp [recs_t.head_tail_inv])).1,
   (C12_last_and_empty_after_append fresh_heap { head := some 3, tail := some 5 } 7 [1, 2]
      (by simp [recs_t.head_tail_inv])).2.1⟩

/-- C13: a newly created `page_recv_t` is in state `RECV_NOT_PROCESSED` with
`last_offset` 1 and an empty chain, and `is_being_processed()` is true
exactly for the state `RECV_BEING_PROCESSED`. -/
theorem C13_page_recv_initial_state (p : page_recv_t) :
    ({} : page_recv_t).state = recv_state.RECV_NOT_PROCESSED ∧
    ({} : page_recv_t).last_offset = 1 ∧
    ({} : page_recv_t).log = {} ∧
    ({} : page_recv_t).log.empty = some true ∧
    ({} : page_recv_t).is_being_processed = false ∧
    (p.is_being_processed = true ↔ p.state = recv_state.RECV_BEING_PROCESSED) ∧
    (p.state = recv_state.RECV_NOT_PROCESSED ∨ p.state = recv_state.RECV_WILL_NOT_READ ∨
      p.state = recv_state.RECV_BEING_READ → p.is_being_processed = false) := by
  refine ⟨rfl, rfl, rfl, rfl, rfl, ?_, ?_⟩
  · simp [page_recv_t.is_being_processed]
  · intro hst
    rcases hst with hst | hst | hst <;> simp [page_recv_t.is_being_processed, hst]

theorem append_edges_closed (h : rec_heap) (c : recs_t) (U : List Nat) (r : Nat)
    (hclosed : edges_closed h U) (hr : r ∈ U) :
    edges_closed (recs_t.append h c (some r)).1 U := by
  intro a ha b hb
  cases ht : c.tail with
  | none =>
    simp only [recs_t.append, ht] at hb
    exact hclosed a ha b hb
  | some t =>
    simp only [recs_t.append, ht] at hb
    by_cases hat : a = t
    · subst hat
      have hbr : b = r := by simpa [set_next] using hb.symm
      exact hbr ▸ hr
    · have hsame : set_next h t (some r) a = h a := by simp [set_next, hat]
      rw [hsame] at hb
      exact hclosed a ha b hb

theorem append_all_edges_closed (U : List Nat) (rs : List Nat) :
    ∀ (h : rec_heap) (c : recs_t), edges_closed h U →
      (∀ a, c.head = some a → a ∈ U) → (∀ r ∈ rs, r ∈ U) →
      edges_closed (append_all h c rs).1 U ∧
        ∀ a, (append_all h c rs).2.head = some a → a ∈ U := by
  induction rs with
  | nil =>
    intro h c hclosed hhead _
    exact ⟨hclosed, hhead⟩
  | cons r rs ih =>
    intro h c hclosed hhead hsub
    have hr : r ∈ U := hsub r (List.mem_cons_self _ _)
    have hhead' : ∀ a, (recs_t.append h c (some r)).2.head = some a → a ∈ U := by
      intro a ha
      cases ht : c.tail with
      | none =>
        simp only [recs_t.append, ht, Option.some.injEq] at ha
        exact ha ▸ hr
      | some t =>
        simp only [recs_t.append, ht] at ha
        exact hhead a ha
    exact ih _ _ (append_edges_closed h c U r hclosed hr) hhead'
      (fun x hx => hsub x (List.mem_cons_of_mem _ hx))

theorem append_all_lsn (rs : List Nat) :
    ∀ (h : rec_heap) (c : recs_t) (a : Nat), ((append_all h c rs).1 a).lsn = (h a).lsn := by
  induction rs with
  | nil => intro h c a; rfl
  | cons r rs ih =>
    intro h c a
    simp only [append_all]
    rw [ih, append_lsn]

theorem visited_mem_closed (h : rec_heap) (U : List Nat) (hclosed : edges_closed h U) :
    ∀ (n : Nat) (p : rec_ptr), (∀ a, p = some a → a ∈ U) → ∀ x ∈ visited h n p, x ∈ U := by
  intro n
  induction n with
  | zero =>
    intro p _ x hx
    cases p <;> simp [visited] at hx
  | succ n ih =>
    intro p hp x hx
    cases p with
    | none => simp [visited] at hx
    | some c =>
      simp only [visited, List.mem_cons] at hx
      rcases hx with hxc | hxr
      · exact hxc ▸ hp c rfl
      · exact ih (iterator_next h c) (fun a ha => hclosed c (hp c rfl) a ha) x hxr

/-- C14: the constructor with commit LSN `l` passes its assertion exactly
when `l` is non-zero, and then yields the snippet with LSN `l` and an absent
forward link. Consequently, in a chain built by appending constructed
snippets, every snippet that the loop from `begin()` visits has a non-zero
commit LSN. -/
theorem C14_constructed_lsn_nonzero (l : Nat) (h0 : rec_heap) (rs : List Nat)
    (hcons : ∀ r ∈ rs, ∃ lr, log_rec_t.construct lr = some (h0 r)) :
    (∀ snippet, log_rec_t.construct l = some snippet →
      snippet.lsn = l ∧ snippet.next = none ∧ l ≠ 0) ∧
    (l ≠ 0 → log_rec_t.construct l = some { next := none, lsn := l }) ∧
    log_rec_t.construct 0 = none ∧
    (∀ n, ∀ x ∈ visited (append_all h0 {} rs).1 n (append_all h0 {} rs).2.begin,
      ((append_all h0 {} rs).1 x).lsn ≠ 0) ∧
    (∀ fuel visit, iterate (append_all h0 {} rs).1 fuel (append_all h0 {} rs).2.begin
      = some visit → ∀ x ∈ visit, ((append_all h0 {} rs).1 x).lsn ≠ 0) := by
  have hshape : ∀ (lr : Nat) (snippet : log_rec_t), log_rec_t.construct lr = some snippet →
      snippet.lsn = lr ∧ snippet.next = none ∧ lr ≠ 0 := by
    intro lr snippet hs
    unfold log_rec_t.construct at hs
    split at hs
    · next hne =>
      simp only [Option.some.injEq] at hs
      subst hs
      exact ⟨rfl, rfl, hne⟩
    · simp at hs
  have hinit : edges_closed h0 rs := by
    intro a ha b hb
    obtain ⟨lr, hlr⟩ := hcons a ha
    rw [(hshape lr _ hlr).2.1] at hb
    simp at hb
  obtain ⟨hclosed, hhead⟩ := append_all_edges_closed rs rs h0 {} hinit
    (by intro a ha; simp at ha) (fun r hr => hr)
  have hvis : ∀ n, ∀ x ∈ visited (append_all h0 {} rs).1 n (append_all h0 {} rs).2.begin,
      ((append_all h0 {} rs).1 x).lsn ≠ 0 := by
    intro n x hx
    have hmem := visited_mem_closed _ rs hclosed n _ hhead x hx
    obtain ⟨lr, hlr⟩ := hcons x hmem
    rw [append_all_lsn, (hshape lr _ hlr).1]
    exact (hshape lr _ hlr).2.2
  refine ⟨hshape l, ?_, by decide, hvis, ?_⟩
  · intro hne
    simp [log_rec_t.construct, hne]
  · intro fuel visit hv x hx
    have := visited_of_iterate _ fuel _ visit hv
    exact hvis fuel x (this ▸ hx)

theorem C14_constructed_lsn_nonzero_witness :
    ((append_all fresh_heap {} [3, 1, 3]).1 1).lsn ≠ 0 :=
  (C14_constructed_lsn_nonzero 8 fresh_heap [3, 1, 3]
    (by intro r _; exact ⟨r + 1, by simp [log_rec_t.construct, fresh_heap]⟩)).2.2.2.1 7 1
    (by decide)

theorem is_chain_last_next (h : rec_heap) (l : List Nat) :
    ∀ (p : rec_ptr), is_chain h p l → ∀ t, l.getLast? = some t → (h t).next = none := by
  induction l with
  | nil => intro p _ t ht; simp at ht
  | cons a rest ih =>
    intro p hc t ht
    obtain ⟨_, hrest⟩ := hc
    cases rest with
    | nil =>
      simp only [List.getLast?_singleton, Option.some.injEq] at ht
      simp only [is_chain] at hrest
      exact ht ▸ hrest
    | cons b bs =>
      rw [List.getLast?_cons_cons] at ht
      exact ih _ hrest t ht

theorem visited_of_is_chain (h : rec_heap) (l : List Nat) :
    ∀ (n : Nat) (p : rec_ptr), is_chain h p l → visited h n p = l.take n := by
  induction l with
  | nil =>
    intro n p hc
    simp only [is_chain] at hc
    subst hc
    cases n <;> simp [visited]
  | cons a rest ih =>
    intro n p hc
    obtain ⟨hp, hrest⟩ := hc
    subst hp
    cases n with
    | zero => simp [visited]
    | succ n => simp [visited, iterator_next, ih n _ hrest]

theorem iterate_none_of_lt (h : rec_heap) (l : List Nat) :
    ∀ (fuel : Nat) (p : rec_ptr), is_chain h p l → fuel < l.length →
      iterate h fuel p = none := by
  induction l with
  | nil => intro fuel p _ hlt; simp at hlt
  | cons a rest ih =>
    intro fuel p hc hlt
    obtain ⟨hp, hrest⟩ := hc
    subst hp
    cases fuel with
    | zero => rfl
    | succ n =>
      have hn : n < rest.length := by simpa using hlt
      simp [iterate, iterator_next, ih n _ hrest hn]

/-- The loop never reaches `end()` from a record that links to itself. -/
theorem iterate_self_loop (h : rec_heap) (r : Nat) (hself : (h r).next = some r) :
    ∀ fuel, iterate h fuel (some r) = none := by
  intro fuel
  induction fuel with
  | zero => rfl
  | succ n ih => simp [iterate, iterator_next, hself, ih]

/-- C15: `append` leaves the record of the appended snippet as it is unless
that snippet is the current tail. For distinct snippets `rs` with absent
forward links appended to a fresh chain, the tail has no successor, the loop
never visits a snippet twice, and it reaches `end()` after exactly
`rs.length` increments. Appending one snippet `r` twice in a row makes the
tail link to itself, and the loop from `begin()` never reaches `end()`. -/
theorem C15_append_keeps_own_link (h0 : rec_heap) (rs : List Nat) (r : Nat)
    (hdistinct : rs.Nodup) (hfresh : ∀ x ∈ rs, (h0 x).next = none) :
    (∀ (h : rec_heap) (c : recs_t) (q : Nat), c.last ≠ some q →
      (recs_t.append h c (some q)).1 q = h q) ∧
    (∀ t, (append_all h0 {} rs).2.last = some t → ((append_all h0 {} rs).1 t).next = none) ∧
    (∀ n, (visited (append_all h0 {} rs).1 n (append_all h0 {} rs).2.begin).Nodup) ∧
    iterate (append_all h0 {} rs).1 rs.length (append_all h0 {} rs).2.begin = some rs ∧
    (∀ k, k < rs.length →
      iterate (append_all h0 {} rs).1 k (append_all h0 {} rs).2.begin = none) ∧
    (append_all h0 {} [r, r]).2.last = some r ∧
    ((append_all h0 {} [r, r]).1 r).next = some r ∧
    (∀ fuel, iterate (append_all h0 {} [r, r]).1 fuel (append_all h0 {} [r, r]).2.begin = none) := by
  have hrep := append_all_represents rs h0 {} [] (represents_fresh h0)
    (by simpa using hdistinct) hfresh
  simp only [List.nil_append] at hrep
  have hbad : ((append_all h0 {} [r, r]).1 r).next = some r := by
    simp [append_all, recs_t.append, set_next]
  refine ⟨?_, ?_, ?_, ?_, ?_, ?_, hbad, ?_⟩
  · intro h c q hq
    exact append_heap_outside h c (some q) q hq
  · intro t ht
    exact is_chain_last_next _ rs _ hrep.1 t (by rw [← hrep.2]; exact ht)
  · intro n
    rw [recs_t.begin, visited_of_is_chain _ rs n _ hrep.1]
    exact hdistinct.sublist (List.take_sublist n rs)
  · exact iterate_of_is_chain _ rs _ rs.length hrep.1 (le_refl _)
  · intro k hk
    exact iterate_none_of_lt _ rs k _ hrep.1 hk
  · simp [append_all, recs_t.append, recs_t.last]
  · intro fuel
    have hbegin : (append_all h0 {} [r, r]).2.begin = some r := by
      simp [append_all, recs_t.append, recs_t.begin]
    rw [hbegin]
    exact iterate_self_loop _ r hbad fuel

theorem C15_append_keeps_own_link_witness :
    iterate (append_all fresh_heap {} [6, 2, 4]).1 3
      (append_all fresh_heap {} [6, 2, 4]).2.begin = some [6, 2, 4] ∧
    iterate (append_all fresh_heap {} [6, 2, 4]).1 2
      (append_all fresh_heap {} [6, 2, 4]).2.begin = none ∧
    iterate (append_all fresh_heap {} [9, 9]).1 100
      (append_all fresh_heap {} [9, 9]).2.begin = none :=
  ⟨(C15_append_keeps_own_link fresh_heap [6, 2, 4] 9 (by decide) (by intro x _; rfl)).2.2.2.1,
   (C15_append_keeps_own_link fresh_heap [6, 2, 4] 9 (by decide) (by intro x _; rfl)).2.2.2.2.1
     2 (by decide),
   (C15_append_keeps_own_link fresh_heap [6, 2, 4] 9 (by decide)
     (by intro x _; rfl)).2.2.2.2.2.2.2 100⟩

end Log0recv
